import Mathlib

/-!
# Verification of the vectorized pairwise-alignment DP engine

This file gives a shallow embedding of the core of the
`seqan::pairwise_aligner` repository and settles the specification claims
about it:

* the narrow saturating score arithmetic (`simd_score` with `int8_t` lanes,
  spec §4.A) — SIMD vectors act elementwise, so one lane is an `Int`
  clamped to `[-128, 127]`, and a full lane vector is a `List Int`;
* the affine recurrence kernel `affine_dp_algorithm::compute_cell`
  together with `initialise_column` / `finalise_column`
  (file `affine_dp_algorithm`);
* the saturated column wrapper `_column_saturated::_wrapper`
  (`dp_matrix_column_saturated.hpp`): `update_offset`, `reset` and
  `check_saturated_arithmetic`;
* the lane cache `_lane::type` (`dp_matrix_lane.hpp`): `unroll_load`,
  `unroll_store` and the last-lane runtime loop;
* a driver, modelled from the spec (§4.I) where the repository's
  `dp_algorithm_template_*` sources are not available, in both an
  unsaturated wide-integer variant and a saturated variant with
  per-block offset rebasing.
-/

namespace PairwiseAligner

/-! ## Narrow saturating lane arithmetic (spec §4.A, `simd_score<int8_t>`)

One SIMD lane of the narrow score type: an `int8_t` value with saturating
add and subtract.  The SIMD operations of the source act elementwise on
lanes, so a lane is modelled as an `Int` clamped to the `int8_t` range. -/

def int8Min : Int := -128

def int8Max : Int := 127

/-- Saturating addition of the narrow (`int8_t`) score type. -/
def satAdd (a b : Int) : Int := max int8Min (min int8Max (a + b))

/-- Saturating subtraction of the narrow (`int8_t`) score type. -/
def satSub (a b : Int) : Int := max int8Min (min int8Max (a - b))

/-- Holds when `x` is representable in the narrow (`int8_t`) score type. -/
def inI8 (x : Int) : Prop := int8Min ≤ x ∧ x ≤ int8Max

instance : DecidablePred inI8 := fun x => by
  unfold inI8; infer_instance

theorem satAdd_eq_add {a b : Int} (h : inI8 (a + b)) : satAdd a b = a + b := by
  obtain ⟨h1, h2⟩ := h
  simp [satAdd, max_eq_right, min_eq_right, h1, h2]

theorem satSub_eq_sub {a b : Int} (h : inI8 (a - b)) : satSub a b = a - b := by
  obtain ⟨h1, h2⟩ := h
  simp [satSub, max_eq_right, min_eq_right, h1, h2]

/-! ## The per-lane arithmetic used by the recurrence kernel

The kernel (`affine_dp_algorithm::compute_cell`) is written once and
instantiated with the narrow saturating score type in the saturated engine
and with a wide (32-bit) score type in the unsaturated engine.  We mirror
that with a record of the additive operation plus an instrumentation
predicate `chk` recording, for each addition performed, whether the exact
sum was representable (so the operation did not saturate resp. overflow). -/

structure Arith where
  add : Int → Int → Int
  chk : Int → Int → Bool

/-- The narrow engine arithmetic: saturating `int8_t` adds; `chk` is true
precisely when the addition did not saturate. -/
def narrowArith : Arith :=
  ⟨satAdd, fun a b => decide (inI8 (a + b))⟩

/-- The unsaturated wide-integer engine arithmetic: exact integer adds.
For inputs whose scores fit the widened (32-bit) type at all times the
wide C++ engine computes these exact sums. -/
def exactArith : Arith :=
  ⟨(· + ·), fun _ _ => true⟩

/-- Exact integer adds instrumented with the widened (`int32_t`) range
check: `chk` is true when the exact sum lies within the `int32_t` range. -/
def wide32Arith : Arith :=
  ⟨(· + ·), fun a b => decide (-(2 ^ 31) ≤ a + b ∧ a + b ≤ 2 ^ 31 - 1)⟩

theorem narrowArith_add_of_chk {a b : Int} (h : narrowArith.chk a b = true) :
    narrowArith.add a b = a + b := by
  have := of_decide_eq_true h
  exact satAdd_eq_add this

/-! ## The affine recurrence kernel (`affine_dp_algorithm::compute_cell`)

A DP cell is a pair `(m, g)` of one-lane scores: `get<0>` is the best
score `m`, `get<1>` the gap score carried in the cell.  The cache is the
pair `(diagonal, gap)` threaded down the column.  The translation follows
the statement order of the source:

    auto [next_diagonal, horizontal_score] = column_cell;
    cache.first += score(seq1_val, seq2_val);
    cache.first = max(max(cache.first, cache.second), horizontal_score);
    get<0>(column_cell) = cache.first;
    cache.first += (gap_open_score + gap_extension_score);
    cache.second = max(cache.second + gap_extension_score, cache.first);
    get<1>(column_cell) = max(horizontal_score + gap_extension_score, cache.first);
    cache.first = next_diagonal;

The gap parameters are scalar integers (spec §6), so `go + ge` is computed
exactly and added to `m` with one (saturating) lane addition, exactly as
the source adds the precomputed `gap_open_score + gap_extension_score`.
The result is `((cache', cell'), ok)` where `ok` conjoins the
instrumentation of every addition performed. -/

def compute_cell (A : Arith) (go ge : Int) (cache cell : Int × Int) (s : Int) :
    ((Int × Int) × (Int × Int)) × Bool :=
  let nextDiagonal := cell.1
  let horizontalScore := cell.2
  let t1 := A.add cache.1 s
  let ok1 := A.chk cache.1 s
  let mNew := max (max t1 cache.2) horizontalScore
  let t2 := A.add mNew (go + ge)
  let ok2 := A.chk mNew (go + ge)
  let t3 := A.add cache.2 ge
  let ok3 := A.chk cache.2 ge
  let cacheGap := max t3 t2
  let t4 := A.add horizontalScore ge
  let ok4 := A.chk horizontalScore ge
  let cellGap := max t4 t2
  (((nextDiagonal, cacheGap), (mNew, cellGap)), ok1 && ok2 && ok3 && ok4)

/-- C2: the per-cell affine recurrence, instantiated with the narrow
saturating arithmetic.  With cache `(diagIn, gapCache)`, column cell
`(mPrev, gapPrev)` and substitution score `s`:
the new best score is `max (diagIn ⊕ s) gapCache gapPrev`; the cell's new
gap score is `max (gapPrev ⊕ ge) (mNew ⊕ (go + ge))`; the cache's new gap
score is `max (gapCache ⊕ ge) (mNew ⊕ (go + ge))`; and the cache's new
diagonal is `mPrev` — where `⊕` is the saturating narrow addition. -/
theorem compute_cell_affine_recurrence (go ge diagIn gapCache mPrev gapPrev s : Int) :
    (compute_cell narrowArith go ge (diagIn, gapCache) (mPrev, gapPrev) s).1 =
      ((mPrev,
        max (satAdd gapCache ge)
            (satAdd (max (max (satAdd diagIn s) gapCache) gapPrev) (go + ge))),
       (max (max (satAdd diagIn s) gapCache) gapPrev,
        max (satAdd gapPrev ge)
            (satAdd (max (max (satAdd diagIn s) gapCache) gapPrev) (go + ge)))) := by
  rfl

/-! ## The saturated column wrapper (`_column_saturated::_wrapper`)

Here the SIMD structure matters (the diagnostics of
`check_saturated_arithmetic` name a lane index), so a score is a lane
vector `List Int` and a DP cell stores two such vectors: `m = get<0>`,
the best score, and `v = get<1>`, the gap score. -/

/-- A DP cell of a saturated DP vector: lane vectors for the two stored
score components (`get<0>` and `get<1>` of the cell tuple). -/
structure SCell where
  m : List Int
  v : List Int
  deriving DecidableEq, Inhabited, Repr

/-- Elementwise saturating subtraction of lane vectors (`operator-=`). -/
def lanesSub (a b : List Int) : List Int := List.zipWith satSub a b

/-- Elementwise saturating addition of lane vectors (`operator+=`). -/
def lanesAdd (a b : List Int) : List Int := List.zipWith satAdd a b

/-- One iteration of `_wrapper::reset`: the fold expression first applies
`values -= new_offset` to both stored components of the cell and then
`values += saturated_zero_offset()` to both, with narrow saturating lane
arithmetic. -/
def resetCell (offset zero : List Int) (c : SCell) : SCell :=
  ⟨lanesAdd (lanesSub c.m offset) zero, lanesAdd (lanesSub c.v offset) zero⟩

/-- Source `_wrapper::reset`: rebases every cell of the wrapped vector. -/
def wrapper_reset (offset zero : List Int) (cells : List SCell) : List SCell :=
  cells.map (resetCell offset zero)

/-- Modelled from the spec: the saturated DP vector's own
`update_offset(new_offset)` (its source, `dp_vector_saturated`, is not
part of the available files).  Per spec §4.G step 3 it replaces the stored
wide offset by `offset + Δ − ZERO`, computed in wide (exact) arithmetic. -/
def vector_update_offset (offset delta zero : List Int) : List Int :=
  List.zipWith (· + ·) offset (List.zipWith (· - ·) delta zero)

/-- Source `_wrapper::update_offset_impl`: `reset(new_offset)` on the cells, then
the vector's `update_offset(new_offset)` on the stored wide offset. -/
def update_offset_impl (zero : List Int) (cells : List SCell) (offset delta : List Int) :
    List SCell × List Int :=
  (wrapper_reset delta zero cells, vector_update_offset offset delta zero)

/-- The rebase of the stored components of one cell does not saturate: for
every lane, both the subtraction of the offset and the subsequent addition
of the zero offset give results representable in the narrow type, for both
stored components. -/
def cellRebaseExact (offset zero : List Int) (c : SCell) : Prop :=
  (∀ k < c.m.length,
      inI8 (c.m.getD k 0 - offset.getD k 0) ∧
      inI8 (c.m.getD k 0 - offset.getD k 0 + zero.getD k 0)) ∧
  (∀ k < c.v.length,
      inI8 (c.v.getD k 0 - offset.getD k 0) ∧
      inI8 (c.v.getD k 0 - offset.getD k 0 + zero.getD k 0))

instance (offset zero : List Int) (c : SCell) : Decidable (cellRebaseExact offset zero c) := by
  unfold cellRebaseExact; infer_instance

theorem getD_zipWith (f : Int → Int → Int) (a b : List Int) (k : Nat)
    (ha : k < a.length) (hb : k < b.length) :
    (List.zipWith f a b).getD k 0 = f (a.getD k 0) (b.getD k 0) := by
  induction a generalizing b k with
  | nil => simp at ha
  | cons x xs ih =>
    cases b with
    | nil => simp at hb
    | cons y ys =>
      cases k with
      | zero => simp
      | succ n =>
        simp only [List.zipWith_cons_cons, List.getD_cons_succ]
        exact ih ys n (by simpa using ha) (by simpa using hb)

/-- C1: offset invariance of the rebase.  For every DP vector
`(cells, offset)`, rebase pivot `Δ`, zero offset, cell index `i` and lane
`k` (all in range, with the lane vectors of matching width), if no narrow
saturating operation of the rebase saturates, then the logical score
`cells[i].m + offset` is preserved exactly by
`update_offset_impl` (evaluated in exact wide arithmetic). -/
theorem rebase_offset_invariance (zero : List Int) (cells : List SCell)
    (offset delta : List Int) (i k : Nat)
    (hi : i < cells.length)
    (hkm : k < (cells.getD i default).m.length)
    (hkd : k < delta.length) (hkz : k < zero.length) (hko : k < offset.length)
    (hsat : ∀ c ∈ cells, cellRebaseExact delta zero c) :
    ((update_offset_impl zero cells offset delta).1.getD i default).m.getD k 0 +
      (update_offset_impl zero cells offset delta).2.getD k 0 =
    (cells.getD i default).m.getD k 0 + offset.getD k 0 := by
  have hcell : cells.getD i default = cells[i] := List.getD_eq_getElem cells default hi
  have hmem : cells[i] ∈ cells := List.getElem_mem hi
  have hex := (hsat _ hmem).1
  have hmap : (update_offset_impl zero cells offset delta).1.getD i default =
      resetCell delta zero cells[i] := by
    simp only [update_offset_impl, wrapper_reset]
    rw [List.getD_eq_getElem _ default (by simpa using hi)]
    simp
  rw [hmap, hcell]
  have hkm' : k < cells[i].m.length := by rwa [hcell] at hkm
  have hklensub : k < (lanesSub cells[i].m delta).length := by
    simpa [lanesSub] using ⟨hkm', hkd⟩
  have hsub : (lanesSub cells[i].m delta).getD k 0 =
      satSub (cells[i].m.getD k 0) (delta.getD k 0) :=
    getD_zipWith _ _ _ _ hkm' hkd
  have hadd : (lanesAdd (lanesSub cells[i].m delta) zero).getD k 0 =
      satAdd ((lanesSub cells[i].m delta).getD k 0) (zero.getD k 0) :=
    getD_zipWith _ _ _ _ hklensub hkz
  have hexk := hex k hkm'
  have hne1 : satSub (cells[i].m.getD k 0) (delta.getD k 0) =
      cells[i].m.getD k 0 - delta.getD k 0 := satSub_eq_sub hexk.1
  have hne2 : satAdd (cells[i].m.getD k 0 - delta.getD k 0) (zero.getD k 0) =
      cells[i].m.getD k 0 - delta.getD k 0 + zero.getD k 0 :=
    satAdd_eq_add hexk.2
  have hoff : (update_offset_impl zero cells offset delta).2.getD k 0 =
      offset.getD k 0 + (delta.getD k 0 - zero.getD k 0) := by
    simp only [update_offset_impl, vector_update_offset]
    rw [getD_zipWith _ _ _ _ hko (by simpa using ⟨hkd, hkz⟩),
        getD_zipWith _ _ _ _ hkd hkz]
  rw [hoff]
  simp only [resetCell]
  rw [hadd, hsub, hne1, hne2]
  ring

/-- Witness for `rebase_offset_invariance` at a concrete two-cell,
two-lane vector. -/
theorem rebase_offset_invariance_witness :
    ((update_offset_impl [60, 60]
        [⟨[10, 20], [5, 15]⟩, ⟨[30, 40], [25, 35]⟩] [100, 200] [10, 20]).1.getD 1
          default).m.getD 0 0 +
      (update_offset_impl [60, 60] [⟨[10, 20], [5, 15]⟩, ⟨[30, 40], [25, 35]⟩]
        [100, 200] [10, 20]).2.getD 0 0 =
    ([⟨[10, 20], [5, 15]⟩, ⟨[30, 40], [25, 35]⟩].getD 1 (default : SCell)).m.getD 0 0 +
      [100, 200].getD 0 0 :=
  rebase_offset_invariance [60, 60] [⟨[10, 20], [5, 15]⟩, ⟨[30, 40], [25, 35]⟩]
    [100, 200] [10, 20] 1 0 (by decide) (by decide) (by decide) (by decide) (by decide)
    (by decide)

/-! ## `_wrapper::check_saturated_arithmetic` and the rebase pivot -/

/-- The narrow saturating rebase of one stored lane value:
`(x - offset) + zero` with `int8_t` saturating arithmetic. -/
def narrowRebase (x offset zero : Int) : Int := satAdd (satSub x offset) zero

/-- The same rebase recomputed in the widened (`int32_t`) type; exact for
all operands arising from `int8_t` lanes. -/
def wideRebase (x offset zero : Int) : Int := x - offset + zero

/-- The diagnostic carried by the `std::runtime_error` thrown by
`check_saturated_arithmetic`: cell index `i`, lane index `k`, the narrow
result, the expected widened result, the two stored cell components, the
offset lane and the zero-offset lane. -/
structure SatDiag where
  cellIdx : Nat
  laneIdx : Nat
  realScore : Int
  expectedScore : Int
  cellM : Int
  cellV : Int
  offsetLane : Int
  zeroLane : Int
  deriving DecidableEq, Repr

/-- The inner lane loop of `check_saturated_arithmetic`: scans the lanes
of one stored component for the first `k` with
`expected_score[k] != real_score[k]` and reports
`(k, real_score[k], expected_score[k])`. -/
def findLaneMismatchFrom (offset zero : List Int) : Nat → List Int → Option (Nat × Int × Int)
  | _, [] => none
  | k, x :: rest =>
    let real := narrowRebase x (offset.getD k 0) (zero.getD k 0)
    let expected := wideRebase x (offset.getD k 0) (zero.getD k 0)
    if real ≠ expected then some (k, real, expected)
    else findLaneMismatchFrom offset zero (k + 1) rest

/-- Assembles the thrown diagnostic from the loop counters and the cell. -/
def mkDiag (i : Nat) (c : SCell) (offset zero : List Int) :
    Nat × Int × Int → SatDiag
  | (k, real, expected) =>
    ⟨i, k, real, expected, c.m.getD k 0, c.v.getD k 0, offset.getD k 0, zero.getD k 0⟩

/-- The cell loop of `check_saturated_arithmetic`: for every cell index
`i` the `get<0>` (score) component is compared lane by lane; the `get<1>`
(gap) component is compared only when `i > 0` (the source comment reads
\"Check also the gap costs for all i > 0.\").  The first mismatch is
thrown; `none` means the check passed. -/
def checkCellsFrom (offset zero : List Int) : Nat → List SCell → Option SatDiag
  | _, [] => none
  | i, c :: rest =>
    match findLaneMismatchFrom offset zero 0 c.m with
    | some r => some (mkDiag i c offset zero r)
    | none =>
      if 0 < i then
        match findLaneMismatchFrom offset zero 0 c.v with
        | some r => some (mkDiag i c offset zero r)
        | none => checkCellsFrom offset zero (i + 1) rest
      else checkCellsFrom offset zero (i + 1) rest

/-- Source `_wrapper::check_saturated_arithmetic(new_offset)`:
`none` means the check returned `true`; `some d` means the saturation
rebase error fired with diagnostic `d` (the function prints the diagnostic
and returns `false`, failing the `assert` in `update_offset`). -/
def check_saturated_arithmetic (offset zero : List Int) (cells : List SCell) :
    Option SatDiag :=
  checkCellsFrom offset zero 0 cells

/-- The narrow rebase of lane `k` of one stored component differs from its
widened recomputation. -/
def laneMismatch (offset zero : List Int) (xs : List Int) (k : Nat) : Prop :=
  narrowRebase (xs.getD k 0) (offset.getD k 0) (zero.getD k 0) ≠
    wideRebase (xs.getD k 0) (offset.getD k 0) (zero.getD k 0)

instance (offset zero : List Int) (xs : List Int) (k : Nat) :
    Decidable (laneMismatch offset zero xs k) := by
  unfold laneMismatch; infer_instance

theorem findLaneMismatchFrom_none (offset zero : List Int) (ys : List Int) (k0 : Nat)
    (h : findLaneMismatchFrom offset zero k0 ys = none) :
    ∀ j < ys.length,
      narrowRebase (ys.getD j 0) (offset.getD (k0 + j) 0) (zero.getD (k0 + j) 0) =
        wideRebase (ys.getD j 0) (offset.getD (k0 + j) 0) (zero.getD (k0 + j) 0) := by
  induction ys generalizing k0 with
  | nil => intro j hj; simp at hj
  | cons x rest ih =>
    intro j hj
    rw [findLaneMismatchFrom] at h
    split at h
    · exact absurd h (by simp)
    · next heq =>
      cases j with
      | zero => simpa using heq
      | succ n =>
        have := ih (k0 + 1) h n (by simpa using hj)
        simpa [Nat.add_comm, Nat.add_left_comm] using this

theorem findLaneMismatchFrom_some (offset zero : List Int) (ys : List Int) (k0 : Nat)
    (r : Nat × Int × Int) (h : findLaneMismatchFrom offset zero k0 ys = some r) :
    r.2.1 ≠ r.2.2 := by
  induction ys generalizing k0 with
  | nil => simp [findLaneMismatchFrom] at h
  | cons x rest ih =>
    rw [findLaneMismatchFrom] at h
    split at h
    · next hne =>
      obtain rfl : r = _ := (Option.some_injective _ h).symm
      simpa using hne
    · exact ih (k0 + 1) h

/-- A mismatch that the cell loop actually covers: the score component of
any cell, or the gap component of a cell with (absolute) index `> 0`. -/
def coveredMismatch (offset zero : List Int) (idx : Nat) (c : SCell) : Prop :=
  (∃ k < c.m.length, laneMismatch offset zero c.m k) ∨
  (0 < idx ∧ ∃ k < c.v.length, laneMismatch offset zero c.v k)

instance (offset zero : List Int) (idx : Nat) (c : SCell) :
    Decidable (coveredMismatch offset zero idx c) := by
  unfold coveredMismatch; infer_instance

theorem checkCellsFrom_fires (offset zero : List Int) (cells : List SCell) (i : Nat)
    (h : ∃ j < cells.length, coveredMismatch offset zero (i + j) (cells.getD j default)) :
    ∃ d, checkCellsFrom offset zero i cells = some d ∧ d.realScore ≠ d.expectedScore := by
  induction cells generalizing i with
  | nil => obtain ⟨j, hj, _⟩ := h; simp at hj
  | cons c rest ih =>
    rw [checkCellsFrom]
    cases hm : findLaneMismatchFrom offset zero 0 c.m with
    | some r =>
      exact ⟨mkDiag i c offset zero r, by simp, by
        obtain ⟨k, real, expected⟩ := r
        simpa [mkDiag] using findLaneMismatchFrom_some offset zero c.m 0 _ hm⟩
    | none =>
      have hmok : ¬ ∃ k < c.m.length, laneMismatch offset zero c.m k := by
        rintro ⟨k, hk, hmis⟩
        exact hmis (by simpa using findLaneMismatchFrom_none offset zero c.m 0 hm k hk)
      by_cases hi : 0 < i
      · simp only [if_pos hi]
        cases hv : findLaneMismatchFrom offset zero 0 c.v with
        | some r =>
          exact ⟨mkDiag i c offset zero r, by simp, by
            obtain ⟨k, real, expected⟩ := r
            simpa [mkDiag] using findLaneMismatchFrom_some offset zero c.v 0 _ hv⟩
        | none =>
          have hvok : ¬ ∃ k < c.v.length, laneMismatch offset zero c.v k := by
            rintro ⟨k, hk, hmis⟩
            exact hmis (by simpa using findLaneMismatchFrom_none offset zero c.v 0 hv k hk)
          apply ih
          obtain ⟨j, hj, hcov⟩ := h
          cases j with
          | zero =>
            exfalso
            simp only [List.getD_cons_zero, coveredMismatch] at hcov
            rcases hcov with ⟨k, hk, hmis⟩ | ⟨_, k, hk, hmis⟩
            · exact hmok ⟨k, hk, hmis⟩
            · exact hvok ⟨k, hk, hmis⟩
          | succ n =>
            exact ⟨n, by simpa using hj, by
              simpa [Nat.add_comm, Nat.add_left_comm] using hcov⟩
      · simp only [if_neg hi]
        apply ih
        obtain ⟨j, hj, hcov⟩ := h
        cases j with
        | zero =>
          exfalso
          have hi0 : i = 0 := Nat.eq_zero_of_not_pos hi
          subst hi0
          simp only [List.getD_cons_zero, coveredMismatch] at hcov
          rcases hcov with ⟨k, hk, hmis⟩ | ⟨h0, _⟩
          · exact hmok ⟨k, hk, hmis⟩
          · simp at h0
        | succ n =>
          exact ⟨n, by simpa using hj, by
            simpa [Nat.add_comm, Nat.add_left_comm] using hcov⟩

/-- C3, amended: the saturation-rebase error fires for every mismatch the
check covers — the score component of any cell, and the gap component of
cells with index `> 0`; the gap component of cell `0` is not checked. -/
theorem check_saturated_arithmetic_fires (offset zero : List Int) (cells : List SCell)
    (h : ∃ j < cells.length, coveredMismatch offset zero j (cells.getD j default)) :
    ∃ d, check_saturated_arithmetic offset zero cells = some d ∧
      d.realScore ≠ d.expectedScore := by
  apply checkCellsFrom_fires
  simpa using h

/-- Witness for `check_saturated_arithmetic_fires`: a one-lane vector
whose second cell's score lane saturates during the rebase. -/
theorem check_saturated_arithmetic_fires_witness :
    ∃ d, check_saturated_arithmetic [100] [0]
        ([⟨[100], [90]⟩, ⟨[-100], [-90]⟩] : List SCell) = some d ∧
      d.realScore ≠ d.expectedScore :=
  check_saturated_arithmetic_fires [100] [0]
    ([⟨[100], [90]⟩, ⟨[-100], [-90]⟩] : List SCell) (by decide)

/-- C3, counterexample to the claim as stated: for the one-cell column
vector `[⟨[0], [-100]⟩]` rebased with its own pivot `Δ = cells[0].m = [0]`
and zero offset `[-64]`, the narrow rebase of the gap component of cell
`0` saturates (narrow `-128` vs widened `-164`), yet
`check_saturated_arithmetic` passes without firing: the gap component of
cell index `0` is exempt from the check. -/
theorem check_saturated_arithmetic_misses_cell0_gap :
    narrowRebase (-100) 0 (-64) ≠ wideRebase (-100) 0 (-64) ∧
      check_saturated_arithmetic [0] [-64] [⟨[0], [-100]⟩] = none := by
  decide

/-! ## The rebase pivot (`_wrapper::update_offset`)

`update_offset` reads `(*this)[is_row_cell_v<value_type>].score()`:
the pivot cell index is the boolean `is_row_cell_v` converted to a
`size_t` — `0` when the wrapped vector holds column cells and `1` when it
holds row cells — and `score()` is the stored `m` component. -/

def pivot_index (isRowCell : Bool) : Nat := if isRowCell then 1 else 0

/-- The rebase offset `Δ` selected by `_wrapper::update_offset`. -/
def wrapper_pivot (isRowCell : Bool) (cells : List SCell) : List Int :=
  (cells.getD (pivot_index isRowCell) default).m

/-- C4, amended: the rebase offset `Δ` is read from cell index `0` when
the wrapped vector is the DP column, and from cell index `1` when it is
the DP row (`is_row_cell_v<value_type>` used as the cell index). -/
theorem wrapper_pivot_index (cells : List SCell) :
    wrapper_pivot false cells = (cells.getD 0 default).m ∧
      wrapper_pivot true cells = (cells.getD 1 default).m := by
  constructor <;> rfl

/-- C4, counterexample to the claim as stated: on a row vector whose cells
`0` and `1` store different scores, the rebase offset is read from cell
`1`, not from cell `0`. -/
theorem wrapper_pivot_row_not_cell0 :
    wrapper_pivot true [⟨[5], [0]⟩, ⟨[7], [0]⟩] = [7] ∧
      wrapper_pivot true [⟨[5], [0]⟩, ⟨[7], [0]⟩] ≠
        (([⟨[5], [0]⟩, ⟨[7], [0]⟩] : List SCell).getD 0 default).m := by
  decide

/-! ## The lane cache (`_lane::type`, `dp_matrix_lane.hpp`)

A lane caches row cells while the kernel sweeps.  The row vector is a
`List α` (the cell type is opaque to the transfers).  The constructor
stores `_row_offset = row_offset + 1` and, for a non-last lane, runs the
compile-time-unrolled `unroll_load`; the destructor runs `unroll_store`.
The last lane instead runs a runtime loop bounded by
`end_index = row.size() - _row_offset`. -/

/-- Source `_lane::type::unroll_load`: `bulk_cache[idx] = row_vector[offset + idx]`
for `idx = 0, …, w − 1`. -/
def unroll_load [Inhabited α] (row : List α) (offset w : Nat) : List α :=
  (List.range w).map fun i => row.getD (offset + i) default

/-- Source `_lane::type::unroll_store`: `row_vector[offset + idx] = bulk_cache[idx]`
for `idx = 0, …, w − 1` (ascending; the writes hit distinct indices). -/
def unroll_store (row cache : List α) [Inhabited α] (offset : Nat) : Nat → List α
  | 0 => row
  | w + 1 => (unroll_store row cache offset w).set (offset + w) (cache.getD w default)

/-- The non-last lane constructor: caches `w` row cells starting at
`_row_offset = rowOffsetArg + 1`. -/
def lane_construct_cache [Inhabited α] (row : List α) (rowOffsetArg w : Nat) : List α :=
  unroll_load row (rowOffsetArg + 1) w

/-- The non-last lane destructor acting on the block state
`(row, column)`: flushes the cache back with `unroll_store`; the column
vector is not touched. -/
def lane_destruct [Inhabited α] (row col cache : List α) (rowOffsetArg w : Nat) :
    List α × List α :=
  (unroll_store row cache (rowOffsetArg + 1) w, col)

/-- The last-lane constructor: a runtime loop copying
`end_index = row.size() − _row_offset` cells (no clamping to the lane
width) from the row into the cache, starting at `_row_offset`. -/
def last_lane_construct_cache [Inhabited α] (row : List α) (rowOffsetArg : Nat) : List α :=
  (List.range (row.length - (rowOffsetArg + 1))).map fun i =>
    row.getD (rowOffsetArg + 1 + i) default

/-- The cache indices written by the last-lane constructor's loop
(`_cached_row[i]` for `i < end_index`). -/
def last_lane_cache_write_indices (rowLen rowOffsetArg : Nat) : List Nat :=
  List.range (rowLen - (rowOffsetArg + 1))

/-- The last-lane destructor: writes the same `end_index` cells back. -/
def last_lane_destruct_row [Inhabited α] (row cache : List α) (rowOffsetArg : Nat) :
    List α :=
  unroll_store row cache (rowOffsetArg + 1) (row.length - (rowOffsetArg + 1))

theorem length_unroll_store [Inhabited α] (row cache : List α) (offset w : Nat) :
    (unroll_store row cache offset w).length = row.length := by
  induction w with
  | zero => rfl
  | succ n ih => simp [unroll_store, ih]

theorem getElem?_unroll_store_outside [Inhabited α] (row cache : List α)
    (offset w j : Nat) (h : j < offset ∨ offset + w ≤ j) :
    (unroll_store row cache offset w)[j]? = row[j]? := by
  induction w with
  | zero => rfl
  | succ n ih =>
    have hne : offset + n ≠ j := by omega
    rw [unroll_store, List.getElem?_set_ne hne]
    exact ih (by omega)

theorem getElem?_unroll_store_inside [Inhabited α] (row cache : List α)
    (offset w j : Nat) (h1 : offset ≤ j) (h2 : j < offset + w) (h3 : j < row.length) :
    (unroll_store row cache offset w)[j]? = some (cache.getD (j - offset) default) := by
  induction w with
  | zero => omega
  | succ n ih =>
    rw [unroll_store]
    by_cases hj : j = offset + n
    · subst hj
      rw [List.getElem?_set_self (by rw [length_unroll_store]; exact h3)]
      simp
    · rw [List.getElem?_set_ne (fun hc => hj hc.symm)]
      exact ih (by omega)

theorem getElem?_unroll_load [Inhabited α] (row : List α) (offset w i : Nat)
    (h : i < w) :
    (unroll_load row offset w)[i]? = some (row.getD (offset + i) default) := by
  rw [unroll_load, List.getElem?_map, List.getElem?_range h]
  rfl

/-- C7: lane round-trip.  Constructing a lane over an in-bounds row window
and destroying it without modifying the cache leaves the row unchanged:
`unroll_store` of the `unroll_load`-ed cache is the identity on the row. -/
theorem lane_round_trip [Inhabited α] (row : List α) (offset w : Nat)
    (h : offset + w ≤ row.length) :
    unroll_store row (unroll_load row offset w) offset w = row := by
  apply List.ext_getElem?
  intro j
  by_cases hj : offset ≤ j ∧ j < offset + w
  · obtain ⟨hj1, hj2⟩ := hj
    have hj3 : j < row.length := by omega
    rw [getElem?_unroll_store_inside row _ offset w j hj1 hj2 hj3]
    have hi : j - offset < w := by omega
    have := getElem?_unroll_load row offset w (j - offset) hi
    have hload : (unroll_load row offset w).getD (j - offset) default =
        row.getD (offset + (j - offset)) default := by
      rw [List.getD_eq_getElem?_getD, this]; rfl
    rw [hload]
    have hoj : offset + (j - offset) = j := by omega
    rw [hoj, List.getD_eq_getElem _ _ hj3, List.getElem?_eq_getElem hj3]
  · rw [getElem?_unroll_store_outside row _ offset w j (by omega)]

/-- Witness for `lane_round_trip` on a concrete three-cell row. -/
theorem lane_round_trip_witness :
    unroll_store ([(1, 2), (3, 4), (5, 6)] : List (Int × Int))
        (unroll_load ([(1, 2), (3, 4), (5, 6)] : List (Int × Int)) 1 2) 1 2 =
      [(1, 2), (3, 4), (5, 6)] :=
  lane_round_trip ([(1, 2), (3, 4), (5, 6)] : List (Int × Int)) 1 2 (by decide)

/-- C8, counterexample to the claim as stated: the non-last lane
constructed with argument `row_offset = 0` over the row `[10, 20, 30]`
with `W = 2` caches `[20, 30]` — the cells starting at index
`row_offset + 1 = 1` — not the cells `[10, 20]` starting at index
`row_offset = 0`. -/
theorem lane_construct_cache_not_at_offset :
    lane_construct_cache ([10, 20, 30] : List Int) 0 2 = [20, 30] ∧
      lane_construct_cache ([10, 20, 30] : List Int) 0 2 ≠ [10, 20] := by
  decide

/-- C8, amended: the non-last lane constructor bulk-loads exactly `w`
consecutive row cells starting at index `rowOffsetArg + 1`, and the
destructor bulk-stores the cache back to exactly those indices. -/
theorem lane_construct_cache_window [Inhabited α] (row col cache : List α)
    (rowOffsetArg w : Nat) (h : rowOffsetArg + 1 + w ≤ row.length)
    (hc : cache.length = w) :
    (lane_construct_cache row rowOffsetArg w).length = w ∧
    (∀ i, i < w →
      (lane_construct_cache row rowOffsetArg w)[i]? = row[rowOffsetArg + 1 + i]?) ∧
    (∀ j, rowOffsetArg + 1 ≤ j → j < rowOffsetArg + 1 + w →
      (lane_destruct row col cache rowOffsetArg w).1[j]? =
        cache[j - (rowOffsetArg + 1)]?) := by
  refine ⟨by simp [lane_construct_cache, unroll_load], ?_, ?_⟩
  · intro i hi
    rw [lane_construct_cache, getElem?_unroll_load row _ w i hi]
    have hlt : rowOffsetArg + 1 + i < row.length := by omega
    rw [List.getD_eq_getElem _ _ hlt, List.getElem?_eq_getElem hlt]
  · intro j hj1 hj2
    rw [lane_destruct]
    rw [getElem?_unroll_store_inside row cache _ w j hj1 hj2 (by omega)]
    have hlt : j - (rowOffsetArg + 1) < cache.length := by omega
    rw [List.getD_eq_getElem _ _ hlt, List.getElem?_eq_getElem hlt]

/-- Witness for `lane_construct_cache_window` at a concrete row. -/
theorem lane_construct_cache_window_witness :
    (lane_construct_cache ([10, 20, 30, 40] : List Int) 0 2).length = 2 ∧
    (∀ i, i < 2 →
      (lane_construct_cache ([10, 20, 30, 40] : List Int) 0 2)[i]? =
        ([10, 20, 30, 40] : List Int)[0 + 1 + i]?) ∧
    (∀ j, 0 + 1 ≤ j → j < 0 + 1 + 2 →
      (lane_destruct ([10, 20, 30, 40] : List Int) ([] : List Int) [7, 8] 0 2).1[j]? =
        ([7, 8] : List Int)[j - (0 + 1)]?) :=
  lane_construct_cache_window ([10, 20, 30, 40] : List Int) ([] : List Int)
    [7, 8] 0 2 (by decide) (by decide)

/-- C6: the last-lane transfer loop runs to
`end_index = row.size() − _row_offset` without clamping to the lane width.
At `W = 4`, a ten-cell row and constructor argument `3`
(`_row_offset = 4`): the loop copies `6` cells — not
`min 4 (10 − 4) = 4` — and writes the cache at indices `4` and `5`,
beyond the `W`-sized `std::array`. -/
theorem last_lane_overruns_cache :
    (last_lane_construct_cache ([0, 1, 2, 3, 4, 5, 6, 7, 8, 9] : List Int) 3).length = 6 ∧
    (last_lane_construct_cache ([0, 1, 2, 3, 4, 5, 6, 7, 8, 9] : List Int) 3).length ≠
      min 4 (10 - 4) ∧
    5 ∈ last_lane_cache_write_indices 10 3 ∧ 4 ≤ 5 := by
  decide

/-- C10: frame effect of the non-last lane destructor.  The destructor
writes only the `w` row cells at indices
`[rowOffsetArg + 1, rowOffsetArg + 1 + w)`; every row cell outside that
window keeps its value, and the column vector is returned untouched. -/
theorem lane_destruct_frame [Inhabited α] (row col cache : List α)
    (rowOffsetArg w j : Nat) (h : j < rowOffsetArg + 1 ∨ rowOffsetArg + 1 + w ≤ j) :
    (lane_destruct row col cache rowOffsetArg w).1[j]? = row[j]? ∧
      (lane_destruct row col cache rowOffsetArg w).2 = col :=
  ⟨getElem?_unroll_store_outside row cache _ w j (by omega), rfl⟩

/-- Witness for `lane_destruct_frame` just below the written window. -/
theorem lane_destruct_frame_witness :
    (lane_destruct ([10, 20, 30, 40] : List Int) ([50] : List Int) [7, 8] 0 2).1[0]? =
        ([10, 20, 30, 40] : List Int)[0]? ∧
      (lane_destruct ([10, 20, 30, 40] : List Int) ([50] : List Int) [7, 8] 0 2).2 =
        [50] :=
  lane_destruct_frame ([10, 20, 30, 40] : List Int) ([50] : List Int) [7, 8] 0 2 0
    (by decide)

/-! ## The column sweep and the driver

`initialise_column`, `compute_cell` and `finalise_column` are translated
from the `affine_dp_algorithm` source.  The driver iterating them over the
DP matrix lives in the repository's `dp_algorithm_template_*` headers,
which are not among the available files; it is modelled from the spec
(§4.I): one full-height column vector, one sweep per symbol of the second
sequence, and — in the saturated variant — a rebase of the column and of
the pending row cells before each row block (spec §3: a block's column
and row slices share one offset domain).  A DP cell is the per-lane pair
`(m, v) = (get<0>, get<1>)`. -/

/-- Source `affine_dp_algorithm::initialise_column`: saves
`cache = (first_column_cell.m, current_row_cell.v)`, overwrites the column
head with the row cell's score, and opens/extends the vertical gap:
`first.v = max (cache.first + gap_open) (first.v + gap_extend)`.
Returns `((cache, new first column cell), ok)`. -/
def initialise_column (A : Arith) (go ge : Int) (rowCell colCell : Int × Int) :
    ((Int × Int) × (Int × Int)) × Bool :=
  let cache := (colCell.1, rowCell.2)
  (((cache), (rowCell.1, max (A.add cache.1 go) (A.add colCell.2 ge))),
   A.chk cache.1 go && A.chk colCell.2 ge)

/-- Source `affine_dp_algorithm::finalise_column`: the row cell becomes
`(last_column_cell.m, cache.second)`. -/
def finalise_column (lastColCell cache : Int × Int) : Int × Int :=
  (lastColCell.1, cache.2)

/-- The kernel sweep over the column cells below the head, each paired
with its substitution score for the current row symbol. -/
def sweep_cells (A : Arith) (go ge : Int) :
    Int × Int → List ((Int × Int) × Int) → ((Int × Int) × List (Int × Int)) × Bool
  | cache, [] => ((cache, []), true)
  | cache, cs :: rest =>
    let r := compute_cell A go ge cache cs.1 cs.2
    let t := sweep_cells A go ge r.1.1 rest
    ((t.1.1, r.1.2 :: t.1.2), r.2 && t.2)

/-- One full column sweep for one row position: `initialise_column` on the
column head, the kernel over the remaining cells, `finalise_column` into
the row cell.  `ss` holds the substitution scores of the column symbols
against the current row symbol. -/
def column_step (A : Arith) (go ge : Int) (col : List (Int × Int))
    (rowCell : Int × Int) (ss : List Int) :
    (List (Int × Int) × (Int × Int)) × Bool :=
  match col with
  | [] => (([], rowCell), true)
  | c0 :: rest =>
    let ini := initialise_column A go ge rowCell c0
    let sw := sweep_cells A go ge ini.1.1 (rest.zip ss)
    ((ini.1.2 :: sw.1.2, finalise_column (sw.1.2.getLastD ini.1.2) sw.1.1),
     ini.2 && sw.2)

/-- Modelled from the spec (§4.I): the unsaturated driver.  Sweeps the
column once per row cell/symbol pair and collects the updated row cells;
no offsets, all scores kept in the (wide) integer type of `A`. -/
def run_columns (A : Arith) (go ge : Int) (subst : α → β → Int) (seq1 : List α) :
    List (Int × Int) → List ((Int × Int) × β) →
    (List (Int × Int) × List (Int × Int)) × Bool
  | col, [] => ((col, []), true)
  | col, rb :: rest =>
    let st := column_step A go ge col rb.1 (seq1.map fun a => subst a rb.2)
    let t := run_columns A go ge subst seq1 st.1.1 rest
    ((t.1.1, st.1.2 :: t.1.2), st.2 && t.2)

/-- The narrow rebase of one engine cell (per lane):
`(c − Δ) + ZERO` on both stored components with saturating `int8_t`
arithmetic; the flag records that neither operation saturated. -/
def rebase_cell (delta zero : Int) (c : Int × Int) : (Int × Int) × Bool :=
  ((satAdd (satSub c.1 delta) zero, satAdd (satSub c.2 delta) zero),
   decide (inI8 (c.1 - delta)) && decide (inI8 (c.1 - delta + zero)) &&
     decide (inI8 (c.2 - delta)) && decide (inI8 (c.2 - delta + zero)))

/-- The rebase of a whole DP vector (the wrapper's `reset`, per lane). -/
def rebase_vec (delta zero : Int) (cells : List (Int × Int)) :
    List (Int × Int) × Bool :=
  (cells.map fun c => (rebase_cell delta zero c).1,
   cells.all fun c => (rebase_cell delta zero c).2)

/-- The sequence of rebases a not-yet-consumed row cell has accumulated:
at every block boundary the whole row vector is rebased, so by the time a
block is consumed each of its cells has undergone one `rebase_cell` per
earlier boundary, oldest first.  The cells are untouched between
boundaries, so applying the accumulated rebases at consumption performs
exactly the same sequence of saturating operations. -/
def apply_rebases (zero : Int) : List Int → (Int × Int) → (Int × Int) × Bool
  | [], c => (c, true)
  | d :: rest, c =>
    let r := rebase_cell d zero c
    let t := apply_rebases zero rest r.1
    (t.1, r.2 && t.2)

/-- Modelled from the spec (§4.G, §4.I): the saturated driver.  The second
sequence's row cells arrive pre-grouped into row blocks; before each block
the column vector and every not-yet-consumed row cell are rebased by the
column pivot `Δ = col[0].m` (the block's column and row slices share one
offset domain), the wide offset becomes `offset + Δ − ZERO`, and the block
is swept with the narrow saturating arithmetic.  `deltas` carries the
rebase offsets already issued to the pending row cells (applied to each
block when it is consumed).  The flag conjoins every saturation check of
every rebase and of every kernel addition. -/
def run_saturated (go ge zero : Int) (subst : α → β → Int) (seq1 : List α) :
    List (Int × Int) × Int → List Int → List (List ((Int × Int) × β)) →
    (List (Int × Int) × Int) × Bool
  | st, _, [] => (st, true)
  | (col, offset), deltas, chunk :: rest =>
    let delta := (col.headD (0, 0)).1
    let rc := rebase_vec delta zero col
    let events := deltas ++ [delta]
    let chunk1 := chunk.map fun rb => ((apply_rebases zero events rb.1).1, rb.2)
    let okPending := chunk.all fun rb => (apply_rebases zero events rb.1).2
    let t := run_columns narrowArith go ge subst seq1 rc.1 chunk1
    let u := run_saturated go ge zero subst seq1 (t.1.1, offset + delta - zero) events rest
    (u.1, rc.2 && okPending && t.2 && u.2)

/-- The final score of the saturated engine: the logical value of the last
column cell, `stored + offset`. -/
def saturated_score (st : List (Int × Int) × Int) : Int :=
  (st.1.getLastD (0, 0)).1 + st.2

/-- The final score of the unsaturated engine: the last column cell. -/
def wide_score (res : List (Int × Int) × List (Int × Int)) : Int :=
  (res.1.getLastD (0, 0)).1

/-- Modelled from the spec (§4.B): the affine initialisation strategy of
the repository's `affine_initialisation_strategy.hpp` (not among the
available files).  Cell `0` is seeded with the zero score, cell `i > 0`
with `gap_open + i · gap_extend`; the gap component is seeded with a very
low sentinel so that a spurious gap continuation never wins the `max`. -/
def affine_initialise (go ge vInit : Int) (i : Nat) : Int × Int :=
  (if i = 0 then 0 else go + i * ge, vInit)

/-- Modelled from the spec (§4.I): `compute(seq1, seq2)` for the
unsaturated engine: initialise both DP vectors from the sequences, sweep
every row position, harvest the bottom-right (last column) cell. -/
def align_score (A : Arith) (go ge vInit : Int) (subst : α → β → Int)
    (seq1 : List α) (seq2 : List β) : Int :=
  let col := (List.range (seq1.length + 1)).map (affine_initialise go ge vInit)
  let rowSeeds := (List.range (seq2.length + 1)).map (affine_initialise go ge vInit)
  wide_score (run_columns A go ge subst seq1 col ((rowSeeds.drop 1).zip seq2)).1

/-! ## Saturated vs unsaturated: the simulation argument

The saturated engine stores `logical − offset` in each cell; as long as
no narrow operation saturates, every kernel step commutes with the
uniform shift by the offset, and every rebase moves the shift from the
cells into the offset.  `shiftP offset` maps a wide (logical) cell to its
stored narrow image. -/

def shiftP (offset : Int) (c : Int × Int) : Int × Int := (c.1 - offset, c.2 - offset)

theorem shiftP_zero (c : Int × Int) : shiftP 0 c = c := by
  simp [shiftP]

theorem compute_cell_shift (go ge s offset d hh m v : Int)
    (hok : (compute_cell narrowArith go ge (d - offset, hh - offset)
      (m - offset, v - offset) s).2 = true) :
    (compute_cell narrowArith go ge (d - offset, hh - offset) (m - offset, v - offset) s).1 =
      (shiftP offset (compute_cell exactArith go ge (d, hh) (m, v) s).1.1,
       shiftP offset (compute_cell exactArith go ge (d, hh) (m, v) s).1.2) := by
  simp only [compute_cell, narrowArith, Bool.and_eq_true, decide_eq_true_eq] at hok
  obtain ⟨⟨⟨h1, h2⟩, h3⟩, h4⟩ := hok
  have e1 : satAdd (d - offset) s = d + s - offset := by
    rw [satAdd_eq_add h1]; ring
  have e2 : max (max (d + s - offset) (hh - offset)) (v - offset) =
      max (max (d + s) hh) v - offset := by
    rw [max_sub_sub_right, max_sub_sub_right]
  rw [e1, e2] at h2
  have e3 : satAdd (max (max (d + s) hh) v - offset) (go + ge) =
      max (max (d + s) hh) v + (go + ge) - offset := by
    rw [satAdd_eq_add h2]; ring
  have e4 : satAdd (hh - offset) ge = hh + ge - offset := by
    rw [satAdd_eq_add h3]; ring
  have e5 : satAdd (v - offset) ge = v + ge - offset := by
    rw [satAdd_eq_add h4]; ring
  simp only [compute_cell, narrowArith, exactArith, shiftP]
  rw [e1, e2, e3, e4, e5, max_sub_sub_right, max_sub_sub_right]

theorem initialise_column_shift (go ge offset : Int) (rowCell colCell : Int × Int)
    (hok : (initialise_column narrowArith go ge (shiftP offset rowCell)
      (shiftP offset colCell)).2 = true) :
    (initialise_column narrowArith go ge (shiftP offset rowCell) (shiftP offset colCell)).1 =
      (shiftP offset (initialise_column exactArith go ge rowCell colCell).1.1,
       shiftP offset (initialise_column exactArith go ge rowCell colCell).1.2) := by
  simp only [initialise_column, narrowArith, shiftP, Bool.and_eq_true,
    decide_eq_true_eq] at hok
  obtain ⟨h1, h2⟩ := hok
  have e1 : satAdd (colCell.1 - offset) go = colCell.1 + go - offset := by
    rw [satAdd_eq_add h1]; ring
  have e2 : satAdd (colCell.2 - offset) ge = colCell.2 + ge - offset := by
    rw [satAdd_eq_add h2]; ring
  simp only [initialise_column, narrowArith, exactArith, shiftP]
  rw [e1, e2, max_sub_sub_right]

theorem sweep_cells_shift (go ge offset : Int) :
    ∀ (pairs : List ((Int × Int) × Int)) (cache : Int × Int),
    (sweep_cells narrowArith go ge (shiftP offset cache)
        (pairs.map fun p => (shiftP offset p.1, p.2))).2 = true →
    (sweep_cells narrowArith go ge (shiftP offset cache)
        (pairs.map fun p => (shiftP offset p.1, p.2))).1.1 =
      shiftP offset (sweep_cells exactArith go ge cache pairs).1.1 ∧
    (sweep_cells narrowArith go ge (shiftP offset cache)
        (pairs.map fun p => (shiftP offset p.1, p.2))).1.2 =
      (sweep_cells exactArith go ge cache pairs).1.2.map (shiftP offset) := by
  intro pairs
  induction pairs with
  | nil => intro cache _; exact ⟨rfl, rfl⟩
  | cons p rest ih =>
    intro cache hok
    simp only [List.map_cons, sweep_cells, Bool.and_eq_true] at hok ⊢
    obtain ⟨hok1, hok2⟩ := hok
    have hcc := compute_cell_shift go ge p.2 offset cache.1 cache.2 p.1.1 p.1.2 hok1
    have hstep : (compute_cell narrowArith go ge (shiftP offset cache)
        (shiftP offset p.1, p.2).1 (shiftP offset p.1, p.2).2).1 =
        (shiftP offset (compute_cell exactArith go ge cache p.1 p.2).1.1,
         shiftP offset (compute_cell exactArith go ge cache p.1 p.2).1.2) := hcc
    rw [hstep] at hok2 ⊢
    have := ih (compute_cell exactArith go ge cache p.1 p.2).1.1 hok2
    exact ⟨this.1, by rw [this.2]⟩

theorem column_step_shift (go ge offset : Int) (colW : List (Int × Int))
    (rowCell : Int × Int) (ss : List Int)
    (hok : (column_step narrowArith go ge (colW.map (shiftP offset))
      (shiftP offset rowCell) ss).2 = true) :
    (column_step narrowArith go ge (colW.map (shiftP offset))
        (shiftP offset rowCell) ss).1.1 =
      (column_step exactArith go ge colW rowCell ss).1.1.map (shiftP offset) := by
  cases colW with
  | nil => rfl
  | cons c0 rest =>
    have hzip : (rest.map (shiftP offset)).zip ss =
        (rest.zip ss).map fun p => (shiftP offset p.1, p.2) := by
      rw [List.zip_map_left]
      apply List.map_congr_left
      rintro ⟨a, b⟩ _
      rfl
    simp only [List.map_cons, column_step, hzip, Bool.and_eq_true] at hok ⊢
    obtain ⟨hok1, hok2⟩ := hok
    have hini := initialise_column_shift go ge offset rowCell c0 hok1
    rw [hini] at hok2 ⊢
    have hsw := sweep_cells_shift go ge offset (rest.zip ss)
      (initialise_column exactArith go ge rowCell c0).1.1 hok2
    rw [hsw.2]

theorem run_columns_shift (go ge offset : Int) (subst : α → β → Int) (seq1 : List α) :
    ∀ (rows : List ((Int × Int) × β)) (colW : List (Int × Int)),
    (run_columns narrowArith go ge subst seq1 (colW.map (shiftP offset))
        (rows.map fun rb => (shiftP offset rb.1, rb.2))).2 = true →
    (run_columns narrowArith go ge subst seq1 (colW.map (shiftP offset))
        (rows.map fun rb => (shiftP offset rb.1, rb.2))).1.1 =
      (run_columns exactArith go ge subst seq1 colW rows).1.1.map (shiftP offset) := by
  intro rows
  induction rows with
  | nil => intro colW _; rfl
  | cons rb rest ih =>
    intro colW hok
    simp only [List.map_cons, run_columns, Bool.and_eq_true] at hok ⊢
    obtain ⟨hok1, hok2⟩ := hok
    have hcs := column_step_shift go ge offset colW rb.1
      (seq1.map fun a => subst a rb.2) hok1
    rw [hcs] at hok2 ⊢
    exact ih (column_step exactArith go ge colW rb.1
      (seq1.map fun a => subst a rb.2)).1.1 hok2

theorem run_columns_append (A : Arith) (go ge : Int) (subst : α → β → Int)
    (seq1 : List α) :
    ∀ (xs ys : List ((Int × Int) × β)) (col : List (Int × Int)),
    (run_columns A go ge subst seq1 col (xs ++ ys)).1.1 =
      (run_columns A go ge subst seq1
        (run_columns A go ge subst seq1 col xs).1.1 ys).1.1 := by
  intro xs
  induction xs with
  | nil => intro ys col; rfl
  | cons rb rest ih =>
    intro ys col
    simp only [List.cons_append, run_columns]
    exact ih ys _

theorem column_step_ne_nil (A : Arith) (go ge : Int) (col : List (Int × Int))
    (rowCell : Int × Int) (ss : List Int) (h : col ≠ []) :
    (column_step A go ge col rowCell ss).1.1 ≠ [] := by
  cases col with
  | nil => exact absurd rfl h
  | cons c0 rest => simp [column_step]

theorem run_columns_ne_nil (A : Arith) (go ge : Int) (subst : α → β → Int)
    (seq1 : List α) :
    ∀ (rows : List ((Int × Int) × β)) (col : List (Int × Int)), col ≠ [] →
    (run_columns A go ge subst seq1 col rows).1.1 ≠ [] := by
  intro rows
  induction rows with
  | nil => intro col h; exact h
  | cons rb rest ih =>
    intro col h
    simp only [run_columns]
    exact ih _ (column_step_ne_nil A go ge col rb.1 _ h)

theorem getLastD_map_of_ne_nil (f : (Int × Int) → (Int × Int)) (l : List (Int × Int))
    (h : l ≠ []) (d d' : Int × Int) :
    (l.map f).getLastD d = f (l.getLastD d') := by
  obtain ⟨x, hx⟩ : ∃ x, l.getLast? = some x := by
    cases l with
    | nil => exact absurd rfl h
    | cons a as => exact ⟨(a :: as).getLast (by simp), List.getLast?_eq_getLast _ _⟩
  simp [List.getLastD_eq_getLast?, List.getLast?_map, hx]

theorem rebase_cell_shift (delta zero offset : Int) (c : Int × Int)
    (hok : (rebase_cell delta zero (shiftP offset c)).2 = true) :
    (rebase_cell delta zero (shiftP offset c)).1 =
      shiftP (offset + delta - zero) c := by
  simp only [rebase_cell, shiftP, Bool.and_eq_true, decide_eq_true_eq] at hok
  obtain ⟨⟨⟨h1, h2⟩, h3⟩, h4⟩ := hok
  simp only [rebase_cell, shiftP, Prod.mk.injEq]
  rw [satSub_eq_sub h1, satSub_eq_sub h3, satAdd_eq_add h2, satAdd_eq_add h4]
  constructor <;> ring

theorem rebase_vec_shift (delta zero offset : Int) :
    ∀ (colW : List (Int × Int)),
    (rebase_vec delta zero (colW.map (shiftP offset))).2 = true →
    (rebase_vec delta zero (colW.map (shiftP offset))).1 =
      colW.map (shiftP (offset + delta - zero)) := by
  intro colW
  induction colW with
  | nil => intro _; rfl
  | cons c rest ih =>
    intro hok
    simp only [List.map_cons, rebase_vec, List.all_cons, Bool.and_eq_true] at hok
    obtain ⟨h1, h2⟩ := hok
    simp only [List.map_cons, rebase_vec, List.map_cons, List.cons.injEq]
    refine ⟨rebase_cell_shift delta zero offset c h1, ?_⟩
    have := ih (by simpa [rebase_vec] using h2)
    simpa [rebase_vec] using this

/-- The running offset after the rebases `es`, starting from `off₀`: each
rebase adds `Δ − ZERO` (in wide arithmetic). -/
def accum_offset (zero off₀ : Int) (es : List Int) : Int :=
  es.foldl (fun o d => o + d - zero) off₀

theorem accum_offset_append (zero off₀ d : Int) (es : List Int) :
    accum_offset zero off₀ (es ++ [d]) = accum_offset zero off₀ es + d - zero := by
  simp [accum_offset, List.foldl_append]

theorem apply_rebases_shift (zero : Int) :
    ∀ (es : List Int) (off : Int) (c : Int × Int),
    (apply_rebases zero es (shiftP off c)).2 = true →
    (apply_rebases zero es (shiftP off c)).1 = shiftP (accum_offset zero off es) c := by
  intro es
  induction es with
  | nil => intro off c _; rfl
  | cons d rest ih =>
    intro off c hok
    simp only [apply_rebases, Bool.and_eq_true] at hok ⊢
    obtain ⟨h1, h2⟩ := hok
    rw [rebase_cell_shift d zero off c h1] at h2 ⊢
    rw [ih (off + d - zero) c h2]
    simp [accum_offset]

theorem rebase_pending_rows_shift {β : Type} (zero : Int) (es : List Int) (off : Int) :
    ∀ (rows : List ((Int × Int) × β)),
    ((rows.map fun rb => (shiftP off rb.1, rb.2)).all
        fun rb => (apply_rebases zero es rb.1).2) = true →
    ((rows.map fun rb => (shiftP off rb.1, rb.2)).map
        fun rb => ((apply_rebases zero es rb.1).1, rb.2)) =
      rows.map fun rb => (shiftP (accum_offset zero off es) rb.1, rb.2) := by
  intro rows
  induction rows with
  | nil => intro _; rfl
  | cons rb rest ih =>
    intro hok
    simp only [List.map_cons, List.all_cons, Bool.and_eq_true] at hok
    obtain ⟨h1, h2⟩ := hok
    simp only [List.map_cons, List.cons.injEq]
    exact ⟨by rw [apply_rebases_shift zero es off rb.1 h1], ih h2⟩

/-- The simulation: as long as no narrow operation saturates, the
saturated engine's state is the wide engine's state shifted by the running
offset, so the two runs stay in lock-step. -/
theorem run_saturated_sim {α β : Type} (go ge zero : Int) (subst : α → β → Int)
    (seq1 : List α) :
    ∀ (chunksW : List (List ((Int × Int) × β))) (colW : List (Int × Int))
      (off₀ : Int) (es : List Int),
    (run_saturated go ge zero subst seq1
        (colW.map (shiftP (accum_offset zero off₀ es)), accum_offset zero off₀ es) es
        (chunksW.map (List.map fun rb => (shiftP off₀ rb.1, rb.2)))).2 = true →
    ∃ offF,
      (run_saturated go ge zero subst seq1
        (colW.map (shiftP (accum_offset zero off₀ es)), accum_offset zero off₀ es) es
        (chunksW.map (List.map fun rb => (shiftP off₀ rb.1, rb.2)))).1 =
      ((run_columns exactArith go ge subst seq1 colW chunksW.flatten).1.1.map (shiftP offF),
       offF) := by
  intro chunksW
  induction chunksW with
  | nil =>
    intro colW off₀ es _
    refine ⟨accum_offset zero off₀ es, ?_⟩
    rw [List.map_nil, run_saturated, List.flatten_nil, run_columns]
  | cons cW restW ih =>
    intro colW off₀ es hok
    simp only [List.map_cons, run_saturated, Bool.and_eq_true] at hok ⊢
    obtain ⟨⟨⟨hrc, hpc⟩, ht⟩, hu⟩ := hok
    set off := accum_offset zero off₀ es with hoff
    set delta := ((colW.map (shiftP off)).headD (0, 0)).1 with hdelta
    have haccum : accum_offset zero off₀ (es ++ [delta]) = off + delta - zero :=
      accum_offset_append zero off₀ delta es
    have hrc1 := rebase_vec_shift delta zero off colW hrc
    have hc1 : ((cW.map fun rb => (shiftP off₀ rb.1, rb.2)).map
        fun rb => ((apply_rebases zero (es ++ [delta]) rb.1).1, rb.2)) =
        cW.map fun rb => (shiftP (off + delta - zero) rb.1, rb.2) := by
      rw [rebase_pending_rows_shift zero (es ++ [delta]) off₀ cW hpc, haccum]
    rw [hrc1, hc1] at ht hu ⊢
    have ht1 := run_columns_shift go ge (off + delta - zero) subst seq1 cW colW ht
    rw [ht1] at hu ⊢
    have hu1 : (run_saturated go ge zero subst seq1
        ((run_columns exactArith go ge subst seq1 colW cW).1.1.map
          (shiftP (accum_offset zero off₀ (es ++ [delta]))),
         accum_offset zero off₀ (es ++ [delta])) (es ++ [delta])
        (restW.map (List.map fun rb => (shiftP off₀ rb.1, rb.2)))).2 = true := by
      rw [haccum]; exact hu
    obtain ⟨offF, hF⟩ := ih (run_columns exactArith go ge subst seq1 colW cW).1.1
      off₀ (es ++ [delta]) hu1
    rw [haccum] at hF
    refine ⟨offF, ?_⟩
    rw [hF, List.flatten_cons, run_columns_append]

theorem map_shiftP_zero (l : List (Int × Int)) : l.map (shiftP 0) = l := by
  calc l.map (shiftP 0) = l.map id := List.map_congr_left fun c _ => shiftP_zero c
    _ = l := List.map_id l

theorem map_chunks_shiftP_zero {β : Type} (chunks : List (List ((Int × Int) × β))) :
    chunks.map (List.map fun rb => (shiftP 0 rb.1, rb.2)) = chunks := by
  calc chunks.map (List.map fun rb => (shiftP 0 rb.1, rb.2))
      = chunks.map id := by
        apply List.map_congr_left
        intro rows _
        calc List.map (fun rb => (shiftP 0 rb.1, rb.2)) rows
            = rows.map id := List.map_congr_left fun rb _ => by simp [shiftP_zero]
          _ = rows := List.map_id rows
    _ = chunks := List.map_id chunks

/-- C5, amended: if no narrow saturating operation saturates anywhere in
the saturated run (every rebase and every kernel addition stays within the
narrow type, which is what the instrumentation flag records), then the
saturated engine — narrow arithmetic, per-block rebases, logical score
`stored + offset` — and the unsaturated wide-integer engine compute the
same final score from the same initial DP vectors. -/
theorem saturated_engine_matches_unsaturated {α β : Type} (go ge zero : Int)
    (subst : α → β → Int) (seq1 : List α) (col : List (Int × Int))
    (chunks : List (List ((Int × Int) × β)))
    (hcol : col ≠ [])
    (hok : (run_saturated go ge zero subst seq1 (col, 0) [] chunks).2 = true) :
    saturated_score (run_saturated go ge zero subst seq1 (col, 0) [] chunks).1 =
      wide_score (run_columns exactArith go ge subst seq1 col chunks.flatten).1 := by
  have hacc : accum_offset zero 0 [] = 0 := rfl
  have h1 : col.map (shiftP 0) = col := map_shiftP_zero col
  have h2 : chunks.map (List.map fun rb => (shiftP 0 rb.1, rb.2)) = chunks :=
    map_chunks_shiftP_zero chunks
  obtain ⟨offF, hF⟩ := run_saturated_sim go ge zero subst seq1 chunks col 0 []
    (by rw [hacc, h1, h2]; exact hok)
  rw [hacc, h1, h2] at hF
  rw [saturated_score, hF]
  have hW : (run_columns exactArith go ge subst seq1 col chunks.flatten).1.1 ≠ [] :=
    run_columns_ne_nil exactArith go ge subst seq1 chunks.flatten col hcol
  rw [getLastD_map_of_ne_nil (shiftP offF) _ hW (0, 0) (0, 0)]
  simp [shiftP, wide_score]

/-- Witness for `saturated_engine_matches_unsaturated`: a small run over
two row blocks whose narrow run never saturates; both engines score 4. -/
theorem saturated_engine_matches_unsaturated_witness :
    saturated_score (run_saturated (-4) (-1) 0 (fun _ _ : Unit => 2) [(), ()]
        ([(0, -20), (-5, -20), (-6, -20)], 0) []
        [[((-5, -20), ())], [((-6, -20), ())]]).1 =
      wide_score (run_columns exactArith (-4) (-1) (fun _ _ : Unit => 2) [(), ()]
        [(0, -20), (-5, -20), (-6, -20)]
        ([[((-5, -20), ())], [((-6, -20), ())]] :
          List (List ((Int × Int) × Unit))).flatten).1 :=
  saturated_engine_matches_unsaturated (-4) (-1) 0 (fun _ _ : Unit => 2) [(), ()]
    [(0, -20), (-5, -20), (-6, -20)] [[((-5, -20), ())], [((-6, -20), ())]]
    (by decide) (by decide)

/-- C5, counterexample to the claim as stated: a configuration whose
logical scores all stay far inside the widened (`int32_t`) range — the
wide engine's instrumented run reports every addition within `int32_t`
bounds — yet the saturated engine saturates the narrow lanes (gap-extend
`-50` pushes stored cells below `-128`) and returns `-128` where the
unsaturated engine returns `-200`.  Staying within the widened range is
not sufficient; the narrow lanes must not saturate. -/
theorem saturated_engine_diverges_within_wide_range :
    (run_columns wide32Arith (-4) (-50) (fun _ _ : Unit => -300) [(), (), ()]
        [(0, -200), (-54, -200), (-104, -200), (-154, -200)]
        [((-54, -200), ())]).2 = true ∧
    saturated_score (run_saturated (-4) (-50) 0 (fun _ _ : Unit => -300) [(), (), ()]
        ([(0, -200), (-54, -200), (-104, -200), (-154, -200)], 0) []
        [[((-54, -200), ())]]).1 = -128 ∧
    wide_score (run_columns exactArith (-4) (-50) (fun _ _ : Unit => -300) [(), (), ()]
        [(0, -200), (-54, -200), (-104, -200), (-154, -200)]
        [((-54, -200), ())]).1 = -200 := by
  decide

/-! ## Empty inputs (C9) -/

theorem getLastD_range_map {γ : Type} (f : Nat → γ) (n : Nat) (d : γ) :
    ((List.range (n + 1)).map f).getLastD d = f n := by
  rw [List.range_succ, List.map_append]
  simp [List.getLastD_eq_getLast?, List.getLast?_concat]

theorem run_columns_empty_seq1 {α β : Type} (A : Arith) (go ge : Int)
    (subst : α → β → Int) :
    ∀ (rows : List ((Int × Int) × β)) (c0 d : Int × Int),
    ((run_columns A go ge subst ([] : List α) [c0] rows).1.1.getLastD d).1 =
      (rows.map fun rb => rb.1.1).getLastD c0.1 := by
  intro rows
  induction rows with
  | nil => intro c0 d; rfl
  | cons rb rest ih =>
    intro c0 d
    simp only [run_columns, column_step, List.map_nil, List.zip_nil_right,
      sweep_cells, List.map_cons, List.getLastD_cons]
    exact ih _ d

/-- C9: with either input sequence empty the driver raises no error and
returns the seed value of the affine initialisation at the other
sequence's length; in particular, global alignment of `ACGT` against the
empty sequence with match `+4`, mismatch `-2`, `gap_open = -4`,
`gap_extend = -1` scores `-8 = gap_open + 4·gap_extend`. -/
theorem align_score_empty_input (go ge vInit : Int) :
    (∀ (α β : Type) (subst : α → β → Int) (seq1 : List α),
      align_score exactArith go ge vInit subst seq1 ([] : List β) =
        (affine_initialise go ge vInit seq1.length).1) ∧
    (∀ (α β : Type) (subst : α → β → Int) (seq2 : List β),
      align_score exactArith go ge vInit subst ([] : List α) seq2 =
        (affine_initialise go ge vInit seq2.length).1) ∧
    align_score exactArith (-4) (-1) (-1073741824)
      (fun a b : Char => if a = b then 4 else -2) ['A', 'C', 'G', 'T'] [] = -8 := by
  refine ⟨?_, ?_, ?_⟩
  · intro α β subst seq1
    simp only [align_score, List.zip_nil_right, wide_score, run_columns]
    rw [getLastD_range_map (affine_initialise go ge vInit) seq1.length (0, 0)]
  · intro α β subst seq2
    simp only [align_score, List.length_nil, wide_score]
    rw [show (List.range (0 + 1)).map (affine_initialise go ge vInit) =
        [affine_initialise go ge vInit 0] by rfl]
    rw [run_columns_empty_seq1 exactArith go ge subst _ _ (0, 0)]
    have hmapfst : (((((List.range (seq2.length + 1)).map
          (affine_initialise go ge vInit)).drop 1).zip seq2).map
            fun rb => rb.1.1) =
        ((((List.range (seq2.length + 1)).map
          (affine_initialise go ge vInit)).drop 1).map fun c => c.1) := by
      rw [show (fun (rb : (Int × Int) × β) => rb.1.1) =
          (fun (c : Int × Int) => c.1) ∘ Prod.fst by rfl]
      rw [← List.map_map]
      congr 1
      apply List.map_fst_zip
      simp
    rw [hmapfst]
    rw [← List.map_drop, List.range_succ_eq_map, List.drop_succ_cons, List.drop_zero,
      List.map_map, List.map_map]
    cases seq2 with
    | nil => rfl
    | cons b rest =>
      simp only [List.length_cons]
      rw [getLastD_range_map _ rest.length _]
      simp [affine_initialise, Function.comp]
  · decide

set_option maxRecDepth 8192 in
/-- The spec's concrete end-to-end scenarios for the modelled driver
(§8): `ACGT/ACGT ↦ 16`, `ACGT/ACCT ↦ 10`, `TTAACCGG/AACCGG ↦ 18` with
match `+4`, mismatch `-2`, `gap_open = -4`, `gap_extend = -1`. -/
theorem align_score_scenarios :
    align_score exactArith (-4) (-1) (-1073741824)
        (fun a b : Char => if a = b then 4 else -2)
        ['A', 'C', 'G', 'T'] ['A', 'C', 'G', 'T'] = 16 ∧
    align_score exactArith (-4) (-1) (-1073741824)
        (fun a b : Char => if a = b then 4 else -2)
        ['A', 'C', 'G', 'T'] ['A', 'C', 'C', 'T'] = 10 ∧
    align_score exactArith (-4) (-1) (-1073741824)
        (fun a b : Char => if a = b then 4 else -2)
        ['T', 'T', 'A', 'A', 'C', 'C', 'G', 'G'] ['A', 'A', 'C', 'C', 'G', 'G'] = 18 := by
  decide

end PairwiseAligner
